import Mathlib

/-!
Shallow embedding of the Quickwit control-plane shard table
(`quickwit/quickwit-control-plane/src/model/shard_table.rs`).

Rust `FnvHashMap` values are embedded as association lists with
`lookupA`/`insertA`/`updateA` (lookup and replacement act on the first
binding, which matches map semantics on the duplicate-free lists produced
by the operations).  Rust `BTreeSet<ShardId>` values are embedded as
sorted duplicate-free `List ShardId` via `btreeInsert` and `List.filter`.
Panics (`panic!`, `assert!`, `.expect`, `.unwrap`) are embedded as `none`
in an `Option`-returning operation.  The `check_invariant` routine of the
source is compiled out in release builds (`cfg!(debug_assertions)`); it is
embedded separately as the predicate `crossIndexInvariant` rather than
inside each mutation.  Logging (`error!`, `warn!`) has no state effect and
is not modelled.  `f32` statistics are embedded as exact rationals.
-/

namespace QW

/-- `NodeId` (quickwit_proto): an opaque ingester node identifier. -/
abbrev NodeId := String

/-- `SourceId` (quickwit_proto): identifies a source within an index. -/
abbrev SourceId := String

/-- `ShardId` (quickwit_proto): identifies a shard within a source. -/
abbrev ShardId := Nat

/-- Modelled from the spec: `IndexUid` (quickwit_proto, not under src/) is
decomposable into a human `index_id` component and a generation suffix. -/
structure IndexUid where
  index_id : String
  incarnation_id : Nat
deriving DecidableEq

/-- `SourceUid` (quickwit_proto): the primary key of a shard group. -/
structure SourceUid where
  index_uid : IndexUid
  source_id : SourceId
deriving DecidableEq

/-- Modelled from the spec: `ShardState` (quickwit_proto, not under src/),
states `Open`, `Closed`, `Unavailable` plus the protobuf `Unspecified`. -/
inductive ShardState where
  | Unspecified
  | Open
  | Unavailable
  | Closed
deriving DecidableEq

/-- Modelled from the spec: `Shard` (quickwit_proto, not under src/), the
authoritative record of one shard; location fields, state, leader and
followers. -/
structure Shard where
  index_uid : IndexUid
  source_id : SourceId
  shard_id : ShardId
  shard_state : ShardState
  leader_id : NodeId
  follower_ids : List NodeId
deriving DecidableEq

/-- Modelled from the spec: `Shard::ingester_nodes` (quickwit_proto, not
under src/) returns the leader followed by the followers. -/
def Shard.ingester_nodes (s : Shard) : List NodeId :=
  s.leader_id :: s.follower_ids

/-- `ShardEntry`: a `Shard` plus its gossiped ingestion rate
(`RateMibPerSec`, a non-negative integer, embedded as `Nat`). -/
structure ShardEntry where
  shard : Shard
  ingestion_rate : Nat
deriving DecidableEq

/-- `impl From<Shard> for ShardEntry`: default (zero) ingestion rate. -/
def ShardEntry.ofShard (s : Shard) : ShardEntry :=
  { shard := s, ingestion_rate := 0 }

/-- Association-list lookup: first binding of the key, as in a map. -/
def lookupA {κ β : Type} [DecidableEq κ] (k : κ) : List (κ × β) → Option β
  | [] => none
  | p :: rest => if p.1 = k then some p.2 else lookupA k rest

/-- Association-list insert: replaces the first binding of the key if
present, otherwise appends; embeds `HashMap::insert`. -/
def insertA {κ β : Type} [DecidableEq κ] (k : κ) (v : β) : List (κ × β) → List (κ × β)
  | [] => [(k, v)]
  | p :: rest => if p.1 = k then (k, v) :: rest else p :: insertA k v rest

/-- Association-list in-place update of the first binding if present;
embeds mutation through `HashMap::get_mut`. -/
def updateA {κ β : Type} [DecidableEq κ] (k : κ) (f : β → β) : List (κ × β) → List (κ × β)
  | [] => []
  | p :: rest => if p.1 = k then (p.1, f p.2) :: rest else p :: updateA k f rest

/-- `HashMap::entry(k).or_insert(v)`: insert only if the key is absent. -/
def insertIfAbsent {κ β : Type} [DecidableEq κ] (k : κ) (v : β) (l : List (κ × β)) :
    List (κ × β) :=
  match lookupA k l with
  | some _ => l
  | none => insertA k v l

/-- `BTreeSet::insert`: sorted insertion without duplication. -/
def btreeInsert (x : ShardId) : List ShardId → List ShardId
  | [] => [x]
  | y :: rest => if x < y then x :: y :: rest else if x = y then y :: rest else y :: btreeInsert x rest

/-- Concatenation of the images of a list, used to embed `flat_map`. -/
def concatMapL {α β : Type} (f : α → List β) : List α → List β
  | [] => []
  | a :: rest => f a ++ concatMapL f rest

/-- `RateLimiterSettings` (quickwit_common): burst, rate (count per window)
and refill period; durations in milliseconds. -/
structure RateLimiterSettings where
  burst_limit : Nat
  rate_limit_count : Nat
  rate_limit_window_ms : Nat
  refill_period_ms : Nat
deriving DecidableEq

/-- Modelled from the spec: `RateLimiter` (quickwit_common, not under
src/), a token bucket; only its settings and fill matter to the claims. -/
structure RateLimiter where
  settings : RateLimiterSettings
  available_permits : Nat
deriving DecidableEq

/-- Modelled from the spec: `RateLimiter::from_settings` starts from a
full bucket. -/
def RateLimiter.from_settings (s : RateLimiterSettings) : RateLimiter :=
  { settings := s, available_permits := s.burst_limit }

/-- `SCALING_UP_RATE_LIMITER_SETTINGS`: burst 5, 5 per 60s, refill 12s. -/
def scalingUpSettings : RateLimiterSettings :=
  { burst_limit := 5, rate_limit_count := 5, rate_limit_window_ms := 60000,
    refill_period_ms := 12000 }

/-- `SCALING_DOWN_RATE_LIMITER_SETTINGS`: burst 1, 1 per 60s, refill 60s. -/
def scalingDownSettings : RateLimiterSettings :=
  { burst_limit := 1, rate_limit_count := 1, rate_limit_window_ms := 60000,
    refill_period_ms := 60000 }

/-- `ShardTableEntry`: the per-source bucket of shards and the two scaling
rate limiters. -/
structure ShardTableEntry where
  shard_entries : List (ShardId × ShardEntry)
  scaling_up_rate_limiter : RateLimiter
  scaling_down_rate_limiter : RateLimiter
deriving DecidableEq

/-- `ShardTableEntry::default`: no shards, default limiters. -/
def ShardTableEntry.default : ShardTableEntry :=
  { shard_entries := []
    scaling_up_rate_limiter := RateLimiter.from_settings scalingUpSettings
    scaling_down_rate_limiter := RateLimiter.from_settings scalingDownSettings }

/-- The filter of `ShardTableEntry::from_shards`: the shard state is
`Open` or `Closed`. -/
def shardKept (sh : Shard) : Bool :=
  match sh.shard_state with
  | ShardState.Open => true
  | ShardState.Closed => true
  | _ => false

/-- `ShardTableEntry::from_shards`: keep `Open`/`Closed` shards, key them
by shard id (`collect` into a map: a later binding replaces an earlier
one), default limiters. -/
def ShardTableEntry.from_shards (shards : List Shard) : ShardTableEntry :=
  { ShardTableEntry.default with
    shard_entries :=
      (shards.filter shardKept).foldl
        (fun m sh => insertA sh.shard_id (ShardEntry.ofShard sh) m) [] }

/-- `ShardTableEntry::is_empty`. -/
def ShardTableEntry.is_empty (e : ShardTableEntry) : Bool :=
  e.shard_entries.isEmpty

/-- The secondary index `NodeId → SourceUid → BTreeSet<ShardId>`. -/
abbrev IngMap := List (NodeId × List (SourceUid × List ShardId))

/-- `ShardTable`: the primary per-source index and the secondary per-node
index. -/
structure ShardTable where
  table_entries : List (SourceUid × ShardTableEntry)
  ingester_shards : IngMap
deriving DecidableEq

/-- `ShardTable::default`: both indices empty. -/
def ShardTable.default : ShardTable :=
  { table_entries := [], ingester_shards := [] }

/-- The `ShardId` set stored for `(node, source_uid)`, empty when either
key is absent. -/
def ingLookup (ing : IngMap) (n : NodeId) (u : SourceUid) : List ShardId :=
  ((lookupA n ing).bind (lookupA u)).getD []

/-- Membership of a `(node, source_uid, shard_id)` triple in the
secondary index. -/
def ingMember (ing : IngMap) (n : NodeId) (u : SourceUid) (s : ShardId) : Prop :=
  s ∈ ingLookup ing n u

/-- Both nested lookups for `(node, source_uid)` succeed; this is what the
`.expect`/`.unwrap` calls of `remove_shard_from_ingesters_internal`
require. -/
def ingHasSlot (ing : IngMap) (n : NodeId) (u : SourceUid) : Bool :=
  ((lookupA n ing).bind (lookupA u)).isSome

/-- One step of the mirroring loops of `insert_newly_opened_shards` and
`initialize_source_shards`:
`ingester_shards.entry(node).or_default().entry(source_uid).or_default().insert(shard_id)`. -/
def addIngester (node : NodeId) (uid : SourceUid) (sid : ShardId) (ing : IngMap) : IngMap :=
  let m := (lookupA node ing).getD []
  let ids := (lookupA uid m).getD []
  insertA node (insertA uid (btreeInsert sid ids) m) ing

/-- The mirroring loop: for each shard and each of its ingester nodes, add
the shard id to the node's set for the source. -/
def mirrorShards (uid : SourceUid) (shards : List Shard) (ing : IngMap) : IngMap :=
  shards.foldl
    (fun acc sh => sh.ingester_nodes.foldl (fun acc2 node => addIngester node uid sh.shard_id acc2) acc)
    ing

/-- `remove_shard_from_ingesters_internal`, one node at a time: `none`
embeds the `.expect("shard table reached inconsistent state")` and the
`.unwrap()` panics; `BTreeSet::remove` is embedded as a filter. -/
def removeShardFromIngesters (uid : SourceUid) (sid : ShardId) :
    List NodeId → IngMap → Option IngMap
  | [], ing => some ing
  | node :: rest, ing =>
    match lookupA node ing with
    | none => none
    | some m =>
      match lookupA uid m with
      | none => none
      | some ids =>
        removeShardFromIngesters uid sid rest
          (insertA node (insertA uid (ids.filter (fun x => decide (x ≠ sid))) m) ing)

/-- Removal of a batch of `(source_uid, shard)` pairs from the secondary
index, in order. -/
def removeShardsFromIngesters : List (SourceUid × Shard) → IngMap → Option IngMap
  | [], ing => some ing
  | p :: rest, ing =>
    match removeShardFromIngesters p.1 p.2.shard_id p.2.ingester_nodes ing with
    | none => none
    | some ing2 => removeShardsFromIngesters rest ing2

/-- The `(node, source_uid, shard_id)` triples derived from the primary
index via `ingester_nodes()`. -/
def tableTriples (t : ShardTable) : List (NodeId × SourceUid × ShardId) :=
  concatMapL
    (fun p =>
      concatMapL
        (fun q => (q.2.shard.ingester_nodes).map (fun n => (n, p.1, q.1)))
        p.2.shard_entries)
    t.table_entries

/-- The `(node, source_uid, shard_id)` triples stored in the secondary
index. -/
def ingesterTriples (t : ShardTable) : List (NodeId × SourceUid × ShardId) :=
  concatMapL
    (fun p => concatMapL (fun q => q.2.map (fun s => (p.1, q.1, s))) p.2)
    t.ingester_shards

/-- The cross-index invariant checked by `ShardTable::check_invariant`
(as stated by the spec): the two triple sets coincide. -/
def crossIndexInvariant (t : ShardTable) : Prop :=
  ∀ tr : NodeId × SourceUid × ShardId, tr ∈ tableTriples t ↔ tr ∈ ingesterTriples t

/-- `ShardTable::add_source`: insert a default entry, replacing any
previous one (the error log on a non-empty previous entry has no state
effect); `ingester_shards` is untouched. -/
def ShardTable.add_source (t : ShardTable) (index_uid : IndexUid) (source_id : SourceId) :
    ShardTable :=
  { t with table_entries := insertA ⟨index_uid, source_id⟩ ShardTableEntry.default t.table_entries }

/-- `ShardTable::delete_index`: collect the `(source_uid, shard)` pairs of
every entry whose `index_id` component matches, strip them from the
secondary index, then retain only the non-matching entries. -/
def ShardTable.delete_index (t : ShardTable) (index_id : String) : Option ShardTable :=
  let removed : List (SourceUid × Shard) :=
    concatMapL
      (fun p => p.2.shard_entries.map (fun q => (p.1, q.2.shard)))
      (t.table_entries.filter (fun p => p.1.index_uid.index_id == index_id))
  match removeShardsFromIngesters removed t.ingester_shards with
  | none => none
  | some ing2 =>
    some { table_entries := t.table_entries.filter (fun p => !(p.1.index_uid.index_id == index_id))
           ingester_shards := ing2 }

/-- `ShardTable::insert_newly_opened_shards`: panic (`none`) when a shard
does not carry the declared index uid and source id; otherwise mirror all
shards into the secondary index and insert into the primary index, where
an existing source keeps its stored entries (`or_insert`) and an unknown
source gets a fresh entry built from the given shards with default
limiters. -/
def ShardTable.insert_newly_opened_shards (t : ShardTable) (index_uid : IndexUid)
    (source_id : SourceId) (opened_shards : List Shard) : Option ShardTable :=
  let source_uid : SourceUid := ⟨index_uid, source_id⟩
  if opened_shards.any (fun sh => decide (sh.index_uid ≠ index_uid ∨ sh.source_id ≠ source_id)) then
    none
  else
    let ing := mirrorShards source_uid opened_shards t.ingester_shards
    let table2 : List (SourceUid × ShardTableEntry) :=
      match lookupA source_uid t.table_entries with
      | some entry =>
        let entry2 :=
          { entry with
            shard_entries :=
              opened_shards.foldl
                (fun m sh => insertIfAbsent sh.shard_id (ShardEntry.ofShard sh) m)
                entry.shard_entries }
        insertA source_uid entry2 t.table_entries
      | none =>
        let entry2 :=
          { ShardTableEntry.default with
            shard_entries :=
              opened_shards.foldl
                (fun m sh => insertA sh.shard_id (ShardEntry.ofShard sh) m) [] }
        insertA source_uid entry2 t.table_entries
    some { table_entries := table2, ingester_shards := ing }

/-- `ShardTable::find_open_shards`: `None` when the source is unknown,
otherwise the stored entries whose shard is open and whose leader is not
unavailable. -/
def ShardTable.find_open_shards (t : ShardTable) (index_uid : IndexUid) (source_id : SourceId)
    (unavailable_leaders : List NodeId) : Option (List ShardEntry) :=
  (lookupA (⟨index_uid, source_id⟩ : SourceUid) t.table_entries).map fun table_entry =>
    (table_entry.shard_entries.map Prod.snd).filter fun se =>
      decide (se.shard.shard_state = ShardState.Open) &&
        !(unavailable_leaders.contains se.shard.leader_id)

/-- `ShardInfo` (quickwit_ingest): one gossiped observation; `ShardInfos`
is embedded as a list of these. -/
structure ShardInfo where
  shard_id : ShardId
  shard_state : ShardState
  ingestion_rate : Nat
deriving DecidableEq

/-- The per-shard effect of one `ShardInfo` in `update_shards`: the
ingestion rate is set unconditionally, the state only when the gossiped
state is `Closed`. -/
def applyInfoToShardEntry (info : ShardInfo) (se : ShardEntry) : ShardEntry :=
  let se2 : ShardEntry := { se with ingestion_rate := info.ingestion_rate }
  if info.shard_state = ShardState.Closed then
    { se2 with shard := { se2.shard with shard_state := ShardState.Closed } }
  else se2

/-- One iteration of the `update_shards` info loop: mutate the stored
entry for the info's shard id, if any. -/
def applyShardInfo (entry : ShardTableEntry) (info : ShardInfo) : ShardTableEntry :=
  { entry with
    shard_entries := updateA info.shard_id (applyInfoToShardEntry info) entry.shard_entries }

/-- The statistics loop of `update_shards`: count open shards and sum
their ingestion rates. -/
def countOpenAndSum (entry : ShardTableEntry) : Nat × Nat :=
  entry.shard_entries.foldl
    (fun acc q =>
      if q.2.shard.shard_state = ShardState.Open then (acc.1 + 1, acc.2 + q.2.ingestion_rate)
      else acc)
    (0, 0)

/-- `ShardStats`; the `f32` average is embedded as an exact rational. -/
structure ShardStats where
  num_open_shards : Nat
  avg_ingestion_rate : ℚ
deriving DecidableEq

/-- `ShardTable::update_shards`: apply the gossiped infos to a known
source, then report the open-shard count and average ingestion rate; an
unknown source is left untouched and reports zeros. -/
def ShardTable.update_shards (t : ShardTable) (source_uid : SourceUid)
    (shard_infos : List ShardInfo) : ShardTable × ShardStats :=
  match lookupA source_uid t.table_entries with
  | none => (t, { num_open_shards := 0, avg_ingestion_rate := 0 })
  | some entry =>
    let entry2 := shard_infos.foldl applyShardInfo entry
    let ns := countOpenAndSum entry2
    let avg : ℚ := if 0 < ns.1 then (ns.2 : ℚ) / (ns.1 : ℚ) else 0
    ({ t with table_entries := insertA source_uid entry2 t.table_entries },
     { num_open_shards := ns.1, avg_ingestion_rate := avg })

/-- Setting a shard entry's state to `Closed`
(`set_shard_state(ShardState::Closed)`). -/
def closeShardEntry (se : ShardEntry) : ShardEntry :=
  { se with shard := { se.shard with shard_state := ShardState.Closed } }

/-- One iteration of the `close_shards` loop: close the shard if stored
and not closed yet, recording its id. -/
def closeStep (acc : List (ShardId × ShardEntry) × List ShardId) (sid : ShardId) :
    List (ShardId × ShardEntry) × List ShardId :=
  match lookupA sid acc.1 with
  | none => acc
  | some se =>
    if se.shard.shard_state = ShardState.Closed then acc
    else (updateA sid closeShardEntry acc.1, acc.2 ++ [sid])

/-- `ShardTable::close_shards`: close the given stored, not-yet-closed
shards of the source and return the ids that transitioned; unknown source
or ids are skipped. -/
def ShardTable.close_shards (t : ShardTable) (source_uid : SourceUid)
    (shard_ids : List ShardId) : ShardTable × List ShardId :=
  match lookupA source_uid t.table_entries with
  | none => (t, [])
  | some entry =>
    let r := shard_ids.foldl closeStep (entry.shard_entries, [])
    ({ t with
       table_entries := insertA source_uid { entry with shard_entries := r.1 } t.table_entries },
     r.2)

/-- `ShardTable::initialize_source_shards`: mirror all given shards into
the secondary index, build the entry via `from_shards`, and panic
(`none`, the `assert!`) when an entry already existed for the source. -/
def ShardTable.init_source_shards (t : ShardTable) (source_uid : SourceUid)
    (shards : List Shard) : Option ShardTable :=
  let ing := mirrorShards source_uid shards t.ingester_shards
  let table_entry := ShardTableEntry.from_shards shards
  match lookupA source_uid t.table_entries with
  | some _ => none
  | none =>
    some { table_entries := insertA source_uid table_entry t.table_entries
           ingester_shards := ing }

/-- First-field projection of an `Option`, used to express map folds:
keep the left value when present, otherwise the right one. -/
def optOr {β : Type} (x y : Option β) : Option β :=
  match x with
  | some v => some v
  | none => y

/-- The open shard entries of a per-source bucket (spec formulation used
by the statistics claim). -/
def openShardEntries (entry : ShardTableEntry) : List ShardEntry :=
  (entry.shard_entries.map Prod.snd).filter
    (fun se => decide (se.shard.shard_state = ShardState.Open))

/-- Total ingestion rate of the open shard entries of a bucket. -/
def openRateSum (entry : ShardTableEntry) : Nat :=
  ((openShardEntries entry).map ShardEntry.ingestion_rate).sum

/-- Well-formedness that the Rust types guarantee by construction: keys
are duplicate-free at both levels of the primary index, and each stored
shard's `shard_id` equals its key (the second part of the invariant of
the spec's data model, asserted by `check_invariant`). -/
def wfTable (t : ShardTable) : Prop :=
  (t.table_entries.map Prod.fst).Nodup ∧
    ∀ p ∈ t.table_entries, ((p.2.shard_entries.map Prod.fst).Nodup ∧
      ∀ q ∈ p.2.shard_entries, q.2.shard.shard_id = q.1)

/-- Every `(node, source_uid)` slot referenced by a stored shard exists in
the secondary index; exactly what the panics inside
`remove_shard_from_ingesters_internal` require of the state. -/
def coveredByIngesters (t : ShardTable) : Prop :=
  ∀ p ∈ t.table_entries, ∀ q ∈ p.2.shard_entries,
    ∀ n ∈ q.2.shard.ingester_nodes, ingHasSlot t.ingester_shards n p.1 = true

instance (t : ShardTable) : Decidable (wfTable t) := by
  unfold wfTable
  infer_instance

instance (t : ShardTable) : Decidable (coveredByIngesters t) := by
  unfold coveredByIngesters
  infer_instance

/-- Sample source uid used by the concrete witnesses. -/
def uid0 : SourceUid := ⟨⟨"test-index", 0⟩, "test-source"⟩

/-- Sample shard constructor used by the concrete witnesses. -/
def mkShard (sid : ShardId) (st : ShardState) (leader : NodeId) : Shard :=
  { index_uid := ⟨"test-index", 0⟩, source_id := "test-source", shard_id := sid,
    shard_state := st, leader_id := leader, follower_ids := [] }

/-- Four sample shards: states Closed, Unavailable, Open, Open. -/
def sampleShards : List Shard :=
  [mkShard 1 ShardState.Closed "test-leader-0", mkShard 2 ShardState.Unavailable "test-leader-0",
   mkShard 3 ShardState.Open "test-leader-0", mkShard 4 ShardState.Open "test-leader-1"]

/-- Sample table holding the four sample shards under `uid0`. -/
def sampleT : ShardTable :=
  (ShardTable.default.insert_newly_opened_shards ⟨"test-index", 0⟩ "test-source"
    sampleShards).getD ShardTable.default

/-- The table entry stored for `uid0` in `sampleT`. -/
def sampleEntry : ShardTableEntry :=
  (lookupA uid0 sampleT.table_entries).getD ShardTableEntry.default

/-- The shard of the invariant-violation input: state `Unavailable`. -/
def shardC1 : Shard := mkShard 1 ShardState.Unavailable "node-1"

/-- The state produced by initializing `uid0` with the single
`Unavailable` shard `shardC1` from the default table. -/
def tC1 : ShardTable :=
  (ShardTable.default.init_source_shards uid0 [shardC1]).getD ShardTable.default

theorem lookupA_insertA {κ β : Type} [DecidableEq κ] (k k2 : κ) (v : β) (l : List (κ × β)) :
    lookupA k (insertA k2 v l) = if k2 = k then some v else lookupA k l := by
  induction l with
  | nil => simp [insertA, lookupA]
  | cons p rest ih =>
    by_cases h1 : p.1 = k2
    · by_cases h2 : k2 = k
      · simp [insertA, lookupA, h1, h2]
      · have h3 : ¬ p.1 = k := by rw [h1]; exact h2
        simp [insertA, lookupA, h1, h2, h3]
    · by_cases h2 : p.1 = k
      · have h3 : ¬ k2 = k := fun hk => h1 (h2.trans hk.symm)
        have h4 : ¬ k = k2 := fun hk => h3 hk.symm
        simp [insertA, lookupA, h1, h2, h3, h4]
      · simp [insertA, lookupA, h1, h2, ih]

theorem lookupA_updateA {κ β : Type} [DecidableEq κ] (k k2 : κ) (f : β → β) (l : List (κ × β)) :
    lookupA k (updateA k2 f l) = if k2 = k then (lookupA k l).map f else lookupA k l := by
  induction l with
  | nil => simp [updateA, lookupA]
  | cons p rest ih =>
    by_cases h1 : p.1 = k2
    · by_cases h2 : k2 = k
      · have h3 : p.1 = k := h1.trans h2
        simp [updateA, lookupA, h1, h2, h3]
      · have h3 : ¬ p.1 = k := by rw [h1]; exact h2
        simp [updateA, lookupA, h1, h2, h3]
    · by_cases h2 : p.1 = k
      · have h3 : ¬ k2 = k := fun hk => h1 (h2.trans hk.symm)
        have h4 : ¬ k = k2 := fun hk => h3 hk.symm
        simp [updateA, lookupA, h1, h2, h3, h4]
      · simp [updateA, lookupA, h1, h2, ih]

theorem lookupA_insertIfAbsent {κ β : Type} [DecidableEq κ] (k k2 : κ) (v : β)
    (l : List (κ × β)) :
    lookupA k (insertIfAbsent k2 v l) =
      if k2 = k then some ((lookupA k2 l).getD v) else lookupA k l := by
  unfold insertIfAbsent
  cases h : lookupA k2 l with
  | some w =>
    by_cases h2 : k2 = k
    · subst h2; simp [h]
    · simp [h2]
  | none => rw [lookupA_insertA]; simp [h]

theorem lookupA_eq_some_iff_mem {κ β : Type} [DecidableEq κ] (l : List (κ × β))
    (h : (l.map Prod.fst).Nodup) (k : κ) (v : β) :
    lookupA k l = some v ↔ (k, v) ∈ l := by
  induction l with
  | nil => simp [lookupA]
  | cons p rest ih =>
    obtain ⟨pk, pv⟩ := p
    rw [List.map_cons, List.nodup_cons] at h
    by_cases h1 : pk = k
    · subst h1
      have hl : lookupA pk ((pk, pv) :: rest) = some pv := by
        rw [lookupA]; simp
      rw [hl]
      constructor
      · intro hv
        obtain hv2 := Option.some.inj hv
        subst hv2
        exact List.mem_cons_self _ _
      · intro hm
        rcases List.mem_cons.mp hm with he | hm2
        · have hv : v = pv := congrArg Prod.snd he
          rw [hv]
        · exact absurd (List.mem_map_of_mem Prod.fst hm2) h.1
    · rw [lookupA]
      simp only [if_neg h1]
      rw [ih h.2]
      constructor
      · intro hm; exact List.mem_cons_of_mem _ hm
      · intro hm
        rcases List.mem_cons.mp hm with he | hm2
        · exact absurd (congrArg Prod.fst he).symm h1
        · exact hm2

theorem lookupA_filter_key {κ β : Type} [DecidableEq κ] (P : κ → Bool) (l : List (κ × β))
    (k : κ) :
    lookupA k (l.filter (fun p => P p.1)) = if P k then lookupA k l else none := by
  induction l with
  | nil => simp [lookupA]
  | cons p rest ih =>
    by_cases h1 : p.1 = k
    · subst h1
      cases h2 : P p.1 with
      | true => simp [List.filter, h2, lookupA, ih]
      | false => simp [List.filter, h2, lookupA, ih]
    · cases h2 : P p.1 with
      | true => simp [List.filter, h2, lookupA, h1, ih]
      | false => simp [List.filter, h2, lookupA, h1, ih]

theorem mem_btreeInsert (x a : ShardId) (l : List ShardId) :
    a ∈ btreeInsert x l ↔ a = x ∨ a ∈ l := by
  induction l with
  | nil => simp [btreeInsert]
  | cons y rest ih =>
    by_cases h1 : x < y
    · simp [btreeInsert, h1]
    · by_cases h2 : x = y
      · subst h2
        have hb : btreeInsert x (x :: rest) = x :: rest := by
          rw [btreeInsert]; simp [h1]
        rw [hb, List.mem_cons]
        tauto
      · have hb : btreeInsert x (y :: rest) = y :: btreeInsert x rest := by
          rw [btreeInsert]; simp [h1, h2]
        rw [hb, List.mem_cons, List.mem_cons, ih]
        tauto

theorem mem_concatMapL {α β : Type} (f : α → List β) (l : List α) (x : β) :
    x ∈ concatMapL f l ↔ ∃ a ∈ l, x ∈ f a := by
  induction l with
  | nil => simp [concatMapL]
  | cons a rest ih => simp [concatMapL, ih]

/-- C7: `insert_newly_opened_shards` panics (returns `none`) exactly when
some given shard's `index_uid` or `source_id` differs from the declared
arguments; when all shards match, this check does not panic.  (In the
source, the check runs before either index is touched.) -/
theorem insert_newly_opened_shards_panics_iff_mismatch (t : ShardTable) (index_uid : IndexUid)
    (source_id : SourceId) (opened_shards : List Shard) :
    t.insert_newly_opened_shards index_uid source_id opened_shards = none ↔
      ∃ sh ∈ opened_shards, sh.index_uid ≠ index_uid ∨ sh.source_id ≠ source_id := by
  constructor
  · intro hnone
    by_cases h : opened_shards.any
        (fun sh => decide (sh.index_uid ≠ index_uid ∨ sh.source_id ≠ source_id)) = true
    · rw [List.any_eq_true] at h
      obtain ⟨sh, hsh, hdec⟩ := h
      exact ⟨sh, hsh, of_decide_eq_true hdec⟩
    · exfalso
      unfold ShardTable.insert_newly_opened_shards at hnone
      rw [if_neg h] at hnone
      simp at hnone
  · rintro ⟨sh, hsh, hne⟩
    have h : opened_shards.any
        (fun sh => decide (sh.index_uid ≠ index_uid ∨ sh.source_id ≠ source_id)) = true :=
      List.any_eq_true.mpr ⟨sh, hsh, decide_eq_true hne⟩
    unfold ShardTable.insert_newly_opened_shards
    rw [if_pos h]

/-- C10: `update_shards` on a source absent from `table_entries` reports
zero open shards and zero average rate and leaves the table unchanged. -/
theorem update_shards_unknown_source (t : ShardTable) (source_uid : SourceUid)
    (shard_infos : List ShardInfo) (h : lookupA source_uid t.table_entries = none) :
    t.update_shards source_uid shard_infos =
      (t, { num_open_shards := 0, avg_ingestion_rate := 0 }) := by
  unfold ShardTable.update_shards
  rw [h]

theorem update_shards_unknown_source_witness :
    ShardTable.default.update_shards uid0 [⟨1, ShardState.Open, 4⟩] =
      (ShardTable.default, { num_open_shards := 0, avg_ingestion_rate := 0 }) :=
  update_shards_unknown_source ShardTable.default uid0 [⟨1, ShardState.Open, 4⟩] (by rfl)

/-- C1 (code bug): initializing a fresh source with a single `Unavailable`
shard mirrors its id into `ingester_shards` while `from_shards` drops it
from `table_entries`, so the resulting state violates the cross-index
invariant even though every stated precondition holds. -/
theorem init_unavailable_shard_breaks_invariant :
    ShardTable.default.init_source_shards uid0 [shardC1] = some tC1 ∧
      ¬ crossIndexInvariant tC1 := by
  constructor
  · rfl
  · intro h
    have hmem : (("node-1" : NodeId), uid0, (1 : ShardId)) ∈ ingesterTriples tC1 := by decide
    have htab := (h (("node-1" : NodeId), uid0, (1 : ShardId))).mpr hmem
    revert htab
    decide

theorem not_contains_iff (U : List NodeId) (x : NodeId) :
    (!(U.contains x)) = true ↔ x ∉ U := by
  have hiff : U.contains x = true ↔ x ∈ U := List.elem_iff
  cases h : U.contains x with
  | true => simp [hiff.mp h]
  | false =>
    have hx : x ∉ U := fun hm => by
      have h2 := hiff.mpr hm
      rw [h] at h2
      exact Bool.noConfusion h2
    simp [hx]

/-- C2: `find_open_shards` returns `none` exactly when the source uid is
absent from `table_entries`; otherwise the returned list holds exactly
the stored shard entries whose state is `Open` and whose leader is not
among the unavailable leaders. -/
theorem find_open_shards_characterization (t : ShardTable) (index_uid : IndexUid)
    (source_id : SourceId) (unavailable_leaders : List NodeId) :
    (t.find_open_shards index_uid source_id unavailable_leaders = none ↔
      lookupA (⟨index_uid, source_id⟩ : SourceUid) t.table_entries = none) ∧
    ∀ l, t.find_open_shards index_uid source_id unavailable_leaders = some l →
      ∃ entry, lookupA (⟨index_uid, source_id⟩ : SourceUid) t.table_entries = some entry ∧
        ∀ se, se ∈ l ↔
          (∃ q ∈ entry.shard_entries, q.2 = se) ∧
            se.shard.shard_state = ShardState.Open ∧
            se.shard.leader_id ∉ unavailable_leaders := by
  constructor
  · unfold ShardTable.find_open_shards
    cases lookupA (⟨index_uid, source_id⟩ : SourceUid) t.table_entries <;> simp
  · intro l hl
    unfold ShardTable.find_open_shards at hl
    cases hlook : lookupA (⟨index_uid, source_id⟩ : SourceUid) t.table_entries with
    | none => rw [hlook] at hl; exact Option.noConfusion hl
    | some entry =>
      rw [hlook] at hl
      have hfl := Option.some.inj hl
      refine ⟨entry, rfl, ?_⟩
      intro se
      rw [← hfl]
      simp only [List.mem_filter, List.mem_map, Bool.and_eq_true, decide_eq_true_eq,
        not_contains_iff]

theorem find_open_shards_characterization_witness :
    ∃ entry,
      lookupA (⟨⟨"test-index", 0⟩, "test-source"⟩ : SourceUid) sampleT.table_entries =
        some entry ∧
      ∀ se, se ∈ [ShardEntry.ofShard (mkShard 3 ShardState.Open "test-leader-0"),
            ShardEntry.ofShard (mkShard 4 ShardState.Open "test-leader-1")] ↔
        (∃ q ∈ entry.shard_entries, q.2 = se) ∧
          se.shard.shard_state = ShardState.Open ∧
          se.shard.leader_id ∉ ([] : List NodeId) :=
  (find_open_shards_characterization sampleT ⟨"test-index", 0⟩ "test-source" []).2 _ (by decide)

theorem countOpen_foldl (l : List (ShardId × ShardEntry)) (a b : Nat) :
    l.foldl
      (fun acc q =>
        if q.2.shard.shard_state = ShardState.Open then (acc.1 + 1, acc.2 + q.2.ingestion_rate)
        else acc)
      (a, b) =
      (a + ((l.map Prod.snd).filter
              (fun se => decide (se.shard.shard_state = ShardState.Open))).length,
       b + (((l.map Prod.snd).filter
              (fun se => decide (se.shard.shard_state = ShardState.Open))).map
              ShardEntry.ingestion_rate).sum) := by
  induction l generalizing a b with
  | nil => simp
  | cons q rest ih =>
    by_cases hq : q.2.shard.shard_state = ShardState.Open
    · simp only [List.foldl_cons, List.map_cons, List.filter_cons]
      rw [if_pos hq, ih]
      simp [hq, Prod.ext_iff]
      omega
    · simp only [List.foldl_cons, List.map_cons, List.filter_cons]
      rw [if_neg hq, ih]
      simp [hq]

theorem countOpenAndSum_eq (entry : ShardTableEntry) :
    countOpenAndSum entry = ((openShardEntries entry).length, openRateSum entry) := by
  unfold countOpenAndSum
  rw [countOpen_foldl]
  simp [openShardEntries, openRateSum]

/-- C8: for a known source, `update_shards` reports the number of open
shards of the post-state entry, and the average rate is the rate sum of
those open shards divided by their number (zero when none are open). -/
theorem update_shards_stats_spec (t : ShardTable) (source_uid : SourceUid)
    (shard_infos : List ShardInfo) (entry : ShardTableEntry)
    (h : lookupA source_uid t.table_entries = some entry) :
    ∃ entry2, lookupA source_uid ((t.update_shards source_uid shard_infos).1.table_entries) =
        some entry2 ∧
      (t.update_shards source_uid shard_infos).2.num_open_shards =
        (openShardEntries entry2).length ∧
      (t.update_shards source_uid shard_infos).2.avg_ingestion_rate =
        (if (openShardEntries entry2).length = 0 then (0 : ℚ)
         else (openRateSum entry2 : ℚ) / ((openShardEntries entry2).length : ℚ)) := by
  refine ⟨shard_infos.foldl applyShardInfo entry, ?_, ?_, ?_⟩
  · simp [ShardTable.update_shards, h, lookupA_insertA]
  · simp [ShardTable.update_shards, h, countOpenAndSum_eq]
  · simp only [ShardTable.update_shards, h, countOpenAndSum_eq]
    by_cases hz : (openShardEntries (shard_infos.foldl applyShardInfo entry)).length = 0
    · simp [hz]
    · have hpos : 0 < (openShardEntries (shard_infos.foldl applyShardInfo entry)).length :=
        Nat.pos_of_ne_zero hz
      simp [hz, hpos]

theorem update_shards_stats_spec_witness :
    ∃ entry2,
      lookupA uid0 ((sampleT.update_shards uid0
          [⟨1, ShardState.Open, 1⟩, ⟨2, ShardState.Open, 2⟩, ⟨3, ShardState.Open, 3⟩,
           ⟨4, ShardState.Closed, 4⟩, ⟨5, ShardState.Open, 5⟩]).1.table_entries) = some entry2 ∧
      (sampleT.update_shards uid0
          [⟨1, ShardState.Open, 1⟩, ⟨2, ShardState.Open, 2⟩, ⟨3, ShardState.Open, 3⟩,
           ⟨4, ShardState.Closed, 4⟩, ⟨5, ShardState.Open, 5⟩]).2.num_open_shards =
        (openShardEntries entry2).length ∧
      (sampleT.update_shards uid0
          [⟨1, ShardState.Open, 1⟩, ⟨2, ShardState.Open, 2⟩, ⟨3, ShardState.Open, 3⟩,
           ⟨4, ShardState.Closed, 4⟩, ⟨5, ShardState.Open, 5⟩]).2.avg_ingestion_rate =
        (if (openShardEntries entry2).length = 0 then (0 : ℚ)
         else (openRateSum entry2 : ℚ) / ((openShardEntries entry2).length : ℚ)) :=
  update_shards_stats_spec sampleT uid0
    [⟨1, ShardState.Open, 1⟩, ⟨2, ShardState.Open, 2⟩, ⟨3, ShardState.Open, 3⟩,
     ⟨4, ShardState.Closed, 4⟩, ⟨5, ShardState.Open, 5⟩] sampleEntry (by decide)

theorem lookup_applyShardInfo (entry : ShardTableEntry) (info : ShardInfo) (sid : ShardId) :
    lookupA sid (applyShardInfo entry info).shard_entries =
      if info.shard_id = sid then
        (lookupA sid entry.shard_entries).map (applyInfoToShardEntry info)
      else lookupA sid entry.shard_entries := by
  unfold applyShardInfo
  exact lookupA_updateA sid info.shard_id (applyInfoToShardEntry info) entry.shard_entries

theorem lookup_foldl_applyShardInfo (shard_infos : List ShardInfo) (entry : ShardTableEntry)
    (sid : ShardId) :
    lookupA sid (shard_infos.foldl applyShardInfo entry).shard_entries =
      (lookupA sid entry.shard_entries).map
        (fun se =>
          (shard_infos.filter (fun i => decide (i.shard_id = sid))).foldl
            (fun se2 i => applyInfoToShardEntry i se2) se) := by
  induction shard_infos generalizing entry with
  | nil => cases hx : lookupA sid entry.shard_entries <;> simp [hx]
  | cons info rest ih =>
    rw [List.foldl_cons, ih, lookup_applyShardInfo, List.filter_cons]
    by_cases hid : info.shard_id = sid
    · simp only [if_pos hid]
      cases hx : lookupA sid entry.shard_entries <;> simp [hx, hid]
    · rw [if_neg hid]
      simp [hid]

theorem filter_eq_nilA {α : Type} (p : α → Bool) (l : List α) (h : ∀ a ∈ l, p a = false) :
    l.filter p = [] := by
  induction l with
  | nil => rfl
  | cons a rest ih =>
    rw [List.filter_cons, h a (List.mem_cons_self a rest)]
    simp only [Bool.false_eq_true, if_false]
    exact ih fun b hb => h b (List.mem_cons_of_mem _ hb)

theorem filter_id_eq_single {shard_infos : List ShardInfo} {info : ShardInfo} {sid : ShardId}
    (hnd : (shard_infos.map ShardInfo.shard_id).Nodup) (hm : info ∈ shard_infos)
    (hid : info.shard_id = sid) :
    shard_infos.filter (fun i => decide (i.shard_id = sid)) = [info] := by
  induction shard_infos with
  | nil => cases hm
  | cons j rest ih =>
    rw [List.map_cons, List.nodup_cons] at hnd
    rcases List.mem_cons.mp hm with he | hm2
    · subst he
      rw [List.filter_cons, if_pos (by simpa using hid)]
      have hrest : rest.filter (fun i => decide (i.shard_id = sid)) = [] := by
        apply filter_eq_nilA
        intro i hi
        have hne : ¬ i.shard_id = sid := fun hisid => by
          apply hnd.1
          have h3 : i.shard_id ∈ rest.map ShardInfo.shard_id :=
            List.mem_map_of_mem ShardInfo.shard_id hi
          rw [hisid, ← hid] at h3
          exact h3
        simpa using hne
      rw [hrest]
    · have hj : ¬ j.shard_id = sid := fun hjs => by
        apply hnd.1
        have : info.shard_id ∈ rest.map ShardInfo.shard_id :=
          List.mem_map_of_mem ShardInfo.shard_id hm2
        rw [hid] at this
        rw [hjs]
        exact this
      rw [List.filter_cons, if_neg (by simpa using hj)]
      exact ih hnd.2 hm2

theorem foldl_applyInfo_preserves_closed (l : List ShardInfo) (se : ShardEntry)
    (h : se.shard.shard_state = ShardState.Closed) :
    (l.foldl (fun se2 i => applyInfoToShardEntry i se2) se).shard.shard_state =
      ShardState.Closed := by
  induction l generalizing se with
  | nil => exact h
  | cons i rest ih =>
    rw [List.foldl_cons]
    apply ih
    unfold applyInfoToShardEntry
    by_cases hc : i.shard_state = ShardState.Closed
    · simp [hc]
    · simp [hc, h]

/-- C3: for a known source, `update_shards` sets the ingestion rate of
every stored shard whose id is in the batch unconditionally, changes a
stored state only when the gossiped state is `Closed`, does not create
entries for batch ids that are not stored, and never moves a state away
from `Closed`. -/
theorem update_shards_pointwise (t : ShardTable) (source_uid : SourceUid)
    (shard_infos : List ShardInfo) (entry : ShardTableEntry)
    (h : lookupA source_uid t.table_entries = some entry)
    (hnd : (shard_infos.map ShardInfo.shard_id).Nodup) :
    ∃ entry2, lookupA source_uid ((t.update_shards source_uid shard_infos).1.table_entries) =
        some entry2 ∧
      (∀ sid, lookupA sid entry.shard_entries = none → lookupA sid entry2.shard_entries = none) ∧
      (∀ sid se, lookupA sid entry.shard_entries = some se →
        ∃ se2, lookupA sid entry2.shard_entries = some se2 ∧
          (∀ info ∈ shard_infos, info.shard_id = sid →
            se2.ingestion_rate = info.ingestion_rate ∧
            se2.shard.shard_state =
              (if info.shard_state = ShardState.Closed then ShardState.Closed
               else se.shard.shard_state)) ∧
          ((∀ info ∈ shard_infos, info.shard_id ≠ sid) → se2 = se) ∧
          (se.shard.shard_state = ShardState.Closed →
            se2.shard.shard_state = ShardState.Closed)) := by
  refine ⟨shard_infos.foldl applyShardInfo entry, ?_, ?_, ?_⟩
  · simp [ShardTable.update_shards, h, lookupA_insertA]
  · intro sid hnone
    rw [lookup_foldl_applyShardInfo, hnone]
    rfl
  · intro sid se hse
    rw [lookup_foldl_applyShardInfo, hse]
    refine ⟨_, rfl, ?_, ?_, ?_⟩
    · intro info hmem hid
      rw [filter_id_eq_single hnd hmem hid]
      simp only [List.foldl_cons, List.foldl_nil]
      unfold applyInfoToShardEntry
      by_cases hc : info.shard_state = ShardState.Closed
      · simp [hc]
      · simp [hc]
    · intro hno
      rw [filter_eq_nilA _ _ (fun i hi => by simpa using hno i hi)]
      rfl
    · intro hclosed
      exact foldl_applyInfo_preserves_closed _ se hclosed

theorem update_shards_pointwise_witness :
    ∃ entry2,
      lookupA uid0 ((sampleT.update_shards uid0
          [⟨3, ShardState.Open, 7⟩, ⟨4, ShardState.Closed, 9⟩]).1.table_entries) = some entry2 ∧
      (∀ sid, lookupA sid sampleEntry.shard_entries = none →
        lookupA sid entry2.shard_entries = none) ∧
      (∀ sid se, lookupA sid sampleEntry.shard_entries = some se →
        ∃ se2, lookupA sid entry2.shard_entries = some se2 ∧
          (∀ info ∈ [(⟨3, ShardState.Open, 7⟩ : ShardInfo), ⟨4, ShardState.Closed, 9⟩],
            info.shard_id = sid →
            se2.ingestion_rate = info.ingestion_rate ∧
            se2.shard.shard_state =
              (if info.shard_state = ShardState.Closed then ShardState.Closed
               else se.shard.shard_state)) ∧
          ((∀ info ∈ [(⟨3, ShardState.Open, 7⟩ : ShardInfo), ⟨4, ShardState.Closed, 9⟩],
            info.shard_id ≠ sid) → se2 = se) ∧
          (se.shard.shard_state = ShardState.Closed →
            se2.shard.shard_state = ShardState.Closed)) :=
  update_shards_pointwise sampleT uid0
    [⟨3, ShardState.Open, 7⟩, ⟨4, ShardState.Closed, 9⟩] sampleEntry (by decide) (by decide)

theorem find_shard_eq_of_nodup (shards : List Shard)
    (hnd : (shards.map Shard.shard_id).Nodup) (sh : Shard) (hm : sh ∈ shards) :
    shards.find? (fun x => decide (x.shard_id = sh.shard_id)) = some sh := by
  induction shards with
  | nil => cases hm
  | cons j rest ih =>
    rw [List.map_cons, List.nodup_cons] at hnd
    rcases List.mem_cons.mp hm with he | hm2
    · subst he
      simp [List.find?_cons]
    · have hj : ¬ j.shard_id = sh.shard_id := fun hjs => by
        apply hnd.1
        rw [hjs]
        exact List.mem_map_of_mem Shard.shard_id hm2
      rw [List.find?_cons]
      simp only [hj, decide_eq_true_eq, if_neg hj]
      exact ih hnd.2 hm2

theorem lookup_fold_insertIfAbsent (shards : List Shard) (m0 : List (ShardId × ShardEntry))
    (sid : ShardId) :
    lookupA sid
        (shards.foldl (fun m sh => insertIfAbsent sh.shard_id (ShardEntry.ofShard sh) m) m0) =
      optOr (lookupA sid m0)
        ((shards.find? (fun sh => decide (sh.shard_id = sid))).map ShardEntry.ofShard) := by
  induction shards generalizing m0 with
  | nil => cases hx : lookupA sid m0 <;> simp [optOr, hx]
  | cons sh rest ih =>
    rw [List.foldl_cons, ih, lookupA_insertIfAbsent]
    by_cases h : sh.shard_id = sid
    · subst h
      rw [if_pos rfl]
      cases hx : lookupA sh.shard_id m0 <;> simp [optOr, hx, List.find?_cons]
    · rw [if_neg h]
      simp [List.find?_cons, h]

theorem lookup_fold_insertA (shards : List Shard) (m0 : List (ShardId × ShardEntry))
    (hnd : (shards.map Shard.shard_id).Nodup)
    (hdisj : ∀ sh ∈ shards, lookupA sh.shard_id m0 = none) (sid : ShardId) :
    lookupA sid
        (shards.foldl (fun m sh => insertA sh.shard_id (ShardEntry.ofShard sh) m) m0) =
      optOr (lookupA sid m0)
        ((shards.find? (fun sh => decide (sh.shard_id = sid))).map ShardEntry.ofShard) := by
  induction shards generalizing m0 with
  | nil => cases hx : lookupA sid m0 <;> simp [optOr, hx]
  | cons sh rest ih =>
    rw [List.map_cons, List.nodup_cons] at hnd
    have hdisj2 : ∀ s2 ∈ rest,
        lookupA s2.shard_id (insertA sh.shard_id (ShardEntry.ofShard sh) m0) = none := by
      intro s2 hs2
      rw [lookupA_insertA]
      have hne : ¬ sh.shard_id = s2.shard_id := fun he => by
        apply hnd.1
        rw [he]
        exact List.mem_map_of_mem Shard.shard_id hs2
      rw [if_neg hne]
      exact hdisj s2 (List.mem_cons_of_mem _ hs2)
    rw [List.foldl_cons, ih _ hnd.2 hdisj2, lookupA_insertA]
    by_cases h : sh.shard_id = sid
    · subst h
      rw [if_pos rfl, hdisj sh (List.mem_cons_self _ _)]
      simp [optOr, List.find?_cons]
    · rw [if_neg h]
      simp [List.find?_cons, h]

/-- C4: when every given shard carries the declared index uid and source
id, `insert_newly_opened_shards` leaves already-stored shard entries of an
existing source unchanged and inserts only the absent ids; for an unknown
source it creates an entry holding exactly the given shards with default
rate limiters. -/
theorem insert_newly_opened_shards_table_spec (t : ShardTable) (index_uid : IndexUid)
    (source_id : SourceId) (opened_shards : List Shard)
    (hmatch : ∀ sh ∈ opened_shards, sh.index_uid = index_uid ∧ sh.source_id = source_id)
    (hnd : (opened_shards.map Shard.shard_id).Nodup) :
    ∃ t2, t.insert_newly_opened_shards index_uid source_id opened_shards = some t2 ∧
      (∀ entry, lookupA (⟨index_uid, source_id⟩ : SourceUid) t.table_entries = some entry →
        ∃ entry2, lookupA (⟨index_uid, source_id⟩ : SourceUid) t2.table_entries = some entry2 ∧
          (∀ sid se, lookupA sid entry.shard_entries = some se →
            lookupA sid entry2.shard_entries = some se) ∧
          (∀ sh ∈ opened_shards, lookupA sh.shard_id entry.shard_entries = none →
            lookupA sh.shard_id entry2.shard_entries = some (ShardEntry.ofShard sh)) ∧
          (∀ sid, lookupA sid entry.shard_entries = none →
            (∀ sh ∈ opened_shards, sh.shard_id ≠ sid) →
            lookupA sid entry2.shard_entries = none)) ∧
      (lookupA (⟨index_uid, source_id⟩ : SourceUid) t.table_entries = none →
        ∃ entry2, lookupA (⟨index_uid, source_id⟩ : SourceUid) t2.table_entries = some entry2 ∧
          (∀ sid, lookupA sid entry2.shard_entries =
            (opened_shards.find? (fun sh => decide (sh.shard_id = sid))).map
              ShardEntry.ofShard) ∧
          (∀ sh ∈ opened_shards,
            lookupA sh.shard_id entry2.shard_entries = some (ShardEntry.ofShard sh)) ∧
          entry2.scaling_up_rate_limiter = RateLimiter.from_settings scalingUpSettings ∧
          entry2.scaling_down_rate_limiter = RateLimiter.from_settings scalingDownSettings) := by
  have hany : opened_shards.any
      (fun sh => decide (sh.index_uid ≠ index_uid ∨ sh.source_id ≠ source_id)) = false := by
    rw [List.any_eq_false]
    intro sh hsh
    obtain ⟨h1, h2⟩ := hmatch sh hsh
    simp [h1, h2]
  have hcond : ¬ (opened_shards.any
      (fun sh => decide (sh.index_uid ≠ index_uid ∨ sh.source_id ≠ source_id)) = true) := by
    rw [hany]
    exact Bool.false_ne_true
  cases hlook : lookupA (⟨index_uid, source_id⟩ : SourceUid) t.table_entries with
  | some entry =>
    have hres : t.insert_newly_opened_shards index_uid source_id opened_shards =
        some { table_entries :=
                 insertA (⟨index_uid, source_id⟩ : SourceUid)
                   { entry with
                     shard_entries :=
                       opened_shards.foldl
                         (fun m sh => insertIfAbsent sh.shard_id (ShardEntry.ofShard sh) m)
                         entry.shard_entries }
                   t.table_entries
               ingester_shards :=
                 mirrorShards ⟨index_uid, source_id⟩ opened_shards t.ingester_shards } := by
      unfold ShardTable.insert_newly_opened_shards
      rw [if_neg hcond, hlook]
    refine ⟨_, hres, ?_, ?_⟩
    · intro entry' hentry'
      obtain rfl := Option.some.inj hentry'
      refine ⟨_, by rw [lookupA_insertA, if_pos rfl], ?_, ?_, ?_⟩
      · intro sid se hse
        rw [lookup_fold_insertIfAbsent, hse]
        rfl
      · intro sh hsh hnone
        rw [lookup_fold_insertIfAbsent, hnone, find_shard_eq_of_nodup opened_shards hnd sh hsh]
        rfl
      · intro sid hnone hnotin
        rw [lookup_fold_insertIfAbsent, hnone]
        have hfind : opened_shards.find? (fun sh => decide (sh.shard_id = sid)) = none := by
          rw [List.find?_eq_none]
          intro sh hsh
          simpa using hnotin sh hsh
        rw [hfind]
        rfl
    · intro hnone
      exact Option.noConfusion hnone
  | none =>
    have hres : t.insert_newly_opened_shards index_uid source_id opened_shards =
        some { table_entries :=
                 insertA (⟨index_uid, source_id⟩ : SourceUid)
                   { ShardTableEntry.default with
                     shard_entries :=
                       opened_shards.foldl
                         (fun m sh => insertA sh.shard_id (ShardEntry.ofShard sh) m) [] }
                   t.table_entries
               ingester_shards :=
                 mirrorShards ⟨index_uid, source_id⟩ opened_shards t.ingester_shards } := by
      unfold ShardTable.insert_newly_opened_shards
      rw [if_neg hcond, hlook]
    refine ⟨_, hres, ?_, ?_⟩
    · intro entry' hentry'
      exact Option.noConfusion hentry'
    · intro _
      have hlk : ∀ sid, lookupA sid
          (opened_shards.foldl (fun m sh => insertA sh.shard_id (ShardEntry.ofShard sh) m)
            ([] : List (ShardId × ShardEntry))) =
          (opened_shards.find? (fun sh => decide (sh.shard_id = sid))).map
            ShardEntry.ofShard := by
        intro sid
        rw [lookup_fold_insertA opened_shards [] hnd (fun sh _ => rfl) sid]
        rfl
      refine ⟨_, by rw [lookupA_insertA, if_pos rfl], hlk, ?_, rfl, rfl⟩
      intro sh hsh
      rw [hlk sh.shard_id, find_shard_eq_of_nodup opened_shards hnd sh hsh]
      rfl

theorem insert_newly_opened_shards_table_spec_witness :
    ∃ t2, sampleT.insert_newly_opened_shards ⟨"test-index", 0⟩ "test-source"
        [mkShard 1 ShardState.Open "test-leader-0", mkShard 5 ShardState.Open "test-leader-2"] =
        some t2 ∧
      (∀ entry,
        lookupA (⟨⟨"test-index", 0⟩, "test-source"⟩ : SourceUid) sampleT.table_entries =
          some entry →
        ∃ entry2,
          lookupA (⟨⟨"test-index", 0⟩, "test-source"⟩ : SourceUid) t2.table_entries =
            some entry2 ∧
          (∀ sid se, lookupA sid entry.shard_entries = some se →
            lookupA sid entry2.shard_entries = some se) ∧
          (∀ sh ∈ [mkShard 1 ShardState.Open "test-leader-0",
              mkShard 5 ShardState.Open "test-leader-2"],
            lookupA sh.shard_id entry.shard_entries = none →
            lookupA sh.shard_id entry2.shard_entries = some (ShardEntry.ofShard sh)) ∧
          (∀ sid, lookupA sid entry.shard_entries = none →
            (∀ sh ∈ [mkShard 1 ShardState.Open "test-leader-0",
                mkShard 5 ShardState.Open "test-leader-2"], sh.shard_id ≠ sid) →
            lookupA sid entry2.shard_entries = none)) ∧
      (lookupA (⟨⟨"test-index", 0⟩, "test-source"⟩ : SourceUid) sampleT.table_entries = none →
        ∃ entry2,
          lookupA (⟨⟨"test-index", 0⟩, "test-source"⟩ : SourceUid) t2.table_entries =
            some entry2 ∧
          (∀ sid, lookupA sid entry2.shard_entries =
            ([mkShard 1 ShardState.Open "test-leader-0",
              mkShard 5 ShardState.Open "test-leader-2"].find?
                (fun sh => decide (sh.shard_id = sid))).map ShardEntry.ofShard) ∧
          (∀ sh ∈ [mkShard 1 ShardState.Open "test-leader-0",
              mkShard 5 ShardState.Open "test-leader-2"],
            lookupA sh.shard_id entry2.shard_entries = some (ShardEntry.ofShard sh)) ∧
          entry2.scaling_up_rate_limiter = RateLimiter.from_settings scalingUpSettings ∧
          entry2.scaling_down_rate_limiter = RateLimiter.from_settings scalingDownSettings) :=
  insert_newly_opened_shards_table_spec sampleT ⟨"test-index", 0⟩ "test-source"
    [mkShard 1 ShardState.Open "test-leader-0", mkShard 5 ShardState.Open "test-leader-2"]
    (by decide) (by decide)

theorem closeShardEntry_eq_self (se : ShardEntry)
    (h : se.shard.shard_state = ShardState.Closed) : closeShardEntry se = se := by
  obtain ⟨⟨iu, si, sid, st, lid, fids⟩, rate⟩ := se
  unfold closeShardEntry
  dsimp only at h
  subst h
  rfl

theorem closeShardEntry_state (se : ShardEntry) :
    (closeShardEntry se).shard.shard_state = ShardState.Closed := rfl

theorem closeShardEntry_idem (se : ShardEntry) :
    closeShardEntry (closeShardEntry se) = closeShardEntry se :=
  closeShardEntry_eq_self _ (closeShardEntry_state se)

theorem close_fold_spec (ids : List ShardId) (m : List (ShardId × ShardEntry))
    (acc : List ShardId) :
    (∀ sid, lookupA sid (ids.foldl closeStep (m, acc)).1 =
        (lookupA sid m).map (fun se => if sid ∈ ids then closeShardEntry se else se)) ∧
    (∀ sid, sid ∈ (ids.foldl closeStep (m, acc)).2 ↔
        sid ∈ acc ∨ (sid ∈ ids ∧ ∃ se, lookupA sid m = some se ∧
          se.shard.shard_state ≠ ShardState.Closed)) := by
  induction ids generalizing m acc with
  | nil =>
    constructor
    · intro sid
      cases hx : lookupA sid m <;> simp [hx]
    · intro sid
      simp
  | cons i rest ih =>
    rw [List.foldl_cons]
    cases hx : lookupA i m with
    | none =>
      have hstep : closeStep (m, acc) i = (m, acc) := by
        unfold closeStep
        rw [hx]
      rw [hstep]
      constructor
      · intro sid
        rw [(ih m acc).1 sid]
        by_cases hs : sid = i
        · subst hs
          rw [hx]
          rfl
        · simp [List.mem_cons, hs]
      · intro sid
        rw [(ih m acc).2 sid]
        constructor
        · rintro (h0 | ⟨hr, hP⟩)
          · exact Or.inl h0
          · exact Or.inr ⟨List.mem_cons_of_mem _ hr, hP⟩
        · rintro (h0 | ⟨hmem, hP⟩)
          · exact Or.inl h0
          · rcases List.mem_cons.mp hmem with he | hr
            · exfalso
              subst he
              obtain ⟨se, hse, -⟩ := hP
              rw [hx] at hse
              exact Option.noConfusion hse
            · exact Or.inr ⟨hr, hP⟩
    | some se =>
      by_cases hcl : se.shard.shard_state = ShardState.Closed
      · have hstep : closeStep (m, acc) i = (m, acc) := by
          unfold closeStep
          rw [hx]
          simp [hcl]
        rw [hstep]
        constructor
        · intro sid
          rw [(ih m acc).1 sid]
          by_cases hs : sid = i
          · subst hs
            rw [hx]
            by_cases hr : sid ∈ rest <;>
              simp [List.mem_cons, hr, closeShardEntry_eq_self se hcl]
          · simp [List.mem_cons, hs]
        · intro sid
          rw [(ih m acc).2 sid]
          constructor
          · rintro (h0 | ⟨hr, hP⟩)
            · exact Or.inl h0
            · exact Or.inr ⟨List.mem_cons_of_mem _ hr, hP⟩
          · rintro (h0 | ⟨hmem, hP⟩)
            · exact Or.inl h0
            · rcases List.mem_cons.mp hmem with he | hr
              · exfalso
                subst he
                obtain ⟨se2, hse2, hne⟩ := hP
                rw [hx] at hse2
                obtain rfl := Option.some.inj hse2
                exact hne hcl
              · exact Or.inr ⟨hr, hP⟩
      · have hstep : closeStep (m, acc) i = (updateA i closeShardEntry m, acc ++ [i]) := by
          unfold closeStep
          rw [hx]
          simp [hcl]
        rw [hstep]
        constructor
        · intro sid
          rw [(ih _ _).1 sid, lookupA_updateA]
          by_cases hs : sid = i
          · subst hs
            rw [if_pos rfl, hx]
            by_cases hr : sid ∈ rest <;>
              simp [List.mem_cons, hr, closeShardEntry_idem]
          · have hs2 : ¬ i = sid := fun he => hs he.symm
            rw [if_neg hs2]
            simp [List.mem_cons, hs]
        · intro sid
          rw [(ih _ _).2 sid]
          by_cases hs : sid = i
          · subst hs
            constructor
            · intro _
              exact Or.inr ⟨List.mem_cons_self _ _, se, hx, hcl⟩
            · intro _
              left
              rw [List.mem_append]
              right
              exact List.mem_cons_self _ _
          · have hs2 : ¬ i = sid := fun he => hs he.symm
            have hlk : lookupA sid (updateA i closeShardEntry m) =
                lookupA sid m := by
              rw [lookupA_updateA, if_neg hs2]
            rw [hlk]
            constructor
            · rintro (h0 | ⟨hr, hP⟩)
              · rw [List.mem_append] at h0
                rcases h0 with h0 | h0
                · exact Or.inl h0
                · exfalso
                  rcases List.mem_cons.mp h0 with he | he
                  · exact hs he
                  · cases he
              · exact Or.inr ⟨List.mem_cons_of_mem _ hr, hP⟩
            · rintro (h0 | ⟨hmem, hP⟩)
              · left
                rw [List.mem_append]
                exact Or.inl h0
              · rcases List.mem_cons.mp hmem with he | hr
                · exact absurd he hs
                · exact Or.inr ⟨hr, hP⟩

/-- C5: `close_shards` closes exactly the stored, not-yet-closed shards
among the given ids, returns exactly the ids that transitioned (unknown
source or ids skipped silently), and an immediately repeated identical
call returns the empty list. -/
theorem close_shards_spec (t : ShardTable) (source_uid : SourceUid)
    (shard_ids : List ShardId) :
    (lookupA source_uid t.table_entries = none →
      t.close_shards source_uid shard_ids = (t, [])) ∧
    (∀ entry, lookupA source_uid t.table_entries = some entry →
      (∃ entry2, lookupA source_uid ((t.close_shards source_uid shard_ids).1.table_entries) =
          some entry2 ∧
        ∀ sid, lookupA sid entry2.shard_entries =
          (lookupA sid entry.shard_entries).map
            (fun se => if sid ∈ shard_ids then closeShardEntry se else se)) ∧
      (∀ sid, sid ∈ (t.close_shards source_uid shard_ids).2 ↔
        sid ∈ shard_ids ∧ ∃ se, lookupA sid entry.shard_entries = some se ∧
          se.shard.shard_state ≠ ShardState.Closed) ∧
      ((t.close_shards source_uid shard_ids).1.close_shards source_uid shard_ids).2 = []) := by
  constructor
  · intro h
    unfold ShardTable.close_shards
    rw [h]
  · intro entry h
    have hres : t.close_shards source_uid shard_ids =
        Prod.mk
          { t with table_entries :=
                     insertA source_uid
                       { entry with
                         shard_entries :=
                           (shard_ids.foldl closeStep (entry.shard_entries, [])).1 }
                       t.table_entries }
          (shard_ids.foldl closeStep (entry.shard_entries, [])).2 := by
      unfold ShardTable.close_shards
      rw [h]
    rw [hres]
    refine ⟨⟨_, by rw [lookupA_insertA, if_pos rfl], ?_⟩, ?_, ?_⟩
    · intro sid
      exact (close_fold_spec shard_ids entry.shard_entries []).1 sid
    · intro sid
      rw [(close_fold_spec shard_ids entry.shard_entries []).2 sid]
      simp
    · unfold ShardTable.close_shards
      rw [lookupA_insertA, if_pos rfl]
      rw [List.eq_nil_iff_forall_not_mem]
      intro sid
      rw [(close_fold_spec shard_ids _ []).2 sid]
      rintro (h0 | ⟨hin, se2, hse2, hne⟩)
      · cases h0
      · rw [(close_fold_spec shard_ids entry.shard_entries []).1 sid] at hse2
        cases hx : lookupA sid entry.shard_entries with
        | none =>
          rw [hx] at hse2
          exact Option.noConfusion hse2
        | some se =>
          rw [hx] at hse2
          simp only [Option.map_some', if_pos hin] at hse2
          obtain rfl := Option.some.inj hse2
          exact hne (closeShardEntry_state se)

theorem close_shards_spec_witness :
    (∃ entry2, lookupA uid0 ((sampleT.close_shards uid0 [1, 2, 5]).1.table_entries) =
        some entry2 ∧
      ∀ sid, lookupA sid entry2.shard_entries =
        (lookupA sid sampleEntry.shard_entries).map
          (fun se => if sid ∈ [1, 2, 5] then closeShardEntry se else se)) ∧
    (∀ sid, sid ∈ (sampleT.close_shards uid0 [1, 2, 5]).2 ↔
      sid ∈ [1, 2, 5] ∧ ∃ se, lookupA sid sampleEntry.shard_entries = some se ∧
        se.shard.shard_state ≠ ShardState.Closed) ∧
    ((sampleT.close_shards uid0 [1, 2, 5]).1.close_shards uid0 [1, 2, 5]).2 = [] :=
  (close_shards_spec sampleT uid0 [1, 2, 5]).2 sampleEntry (by decide)

theorem ingLookup_eq_getD (ing : IngMap) (n : NodeId) (u : SourceUid) :
    ingLookup ing n u = (lookupA u ((lookupA n ing).getD [])).getD [] := by
  cases hni : lookupA n ing with
  | none => simp [ingLookup, hni, lookupA]
  | some m => simp [ingLookup, hni]

theorem ingLookup_addIngester (node : NodeId) (uid : SourceUid) (sid : ShardId) (ing : IngMap)
    (n : NodeId) (u : SourceUid) (s : ShardId) :
    s ∈ ingLookup (addIngester node uid sid ing) n u ↔
      (n = node ∧ u = uid ∧ s = sid) ∨ s ∈ ingLookup ing n u := by
  unfold addIngester
  rw [ingLookup_eq_getD, lookupA_insertA]
  by_cases hn : node = n
  · subst hn
    rw [if_pos rfl]
    simp only [Option.getD_some]
    rw [lookupA_insertA]
    by_cases hu : uid = u
    · subst hu
      rw [if_pos rfl]
      simp only [Option.getD_some]
      rw [mem_btreeInsert, ingLookup_eq_getD]
      tauto
    · rw [if_neg hu, ingLookup_eq_getD]
      have hu2 : ¬ u = uid := fun he => hu he.symm
      simp [hu2]
  · rw [if_neg hn, ← ingLookup_eq_getD]
    have hn2 : ¬ n = node := fun he => hn he.symm
    simp [hn2]

theorem ingLookup_foldl_addIngester (nodes : List NodeId) (uid : SourceUid) (sid : ShardId)
    (ing : IngMap) (n : NodeId) (u : SourceUid) (s : ShardId) :
    s ∈ ingLookup (nodes.foldl (fun acc node => addIngester node uid sid acc) ing) n u ↔
      (n ∈ nodes ∧ u = uid ∧ s = sid) ∨ s ∈ ingLookup ing n u := by
  induction nodes generalizing ing with
  | nil => simp
  | cons node rest ih =>
    rw [List.foldl_cons, ih, ingLookup_addIngester, List.mem_cons]
    tauto

theorem mirrorShards_cons (uid : SourceUid) (sh : Shard) (rest : List Shard) (ing : IngMap) :
    mirrorShards uid (sh :: rest) ing =
      mirrorShards uid rest
        (sh.ingester_nodes.foldl (fun acc node => addIngester node uid sh.shard_id acc) ing) :=
  rfl

theorem mem_mirrorShards (uid : SourceUid) (shards : List Shard) (ing : IngMap)
    (n : NodeId) (u : SourceUid) (s : ShardId) :
    s ∈ ingLookup (mirrorShards uid shards ing) n u ↔
      (u = uid ∧ ∃ sh ∈ shards, sh.shard_id = s ∧ n ∈ sh.ingester_nodes) ∨
        s ∈ ingLookup ing n u := by
  induction shards generalizing ing with
  | nil => simp [mirrorShards]
  | cons sh rest ih =>
    rw [mirrorShards_cons, ih, ingLookup_foldl_addIngester]
    constructor
    · rintro (⟨hu, sh2, hsh2, hs2, hn2⟩ | ⟨hn2, hu, hs2⟩ | hbase)
      · exact Or.inl ⟨hu, sh2, List.mem_cons_of_mem _ hsh2, hs2, hn2⟩
      · exact Or.inl ⟨hu, sh, List.mem_cons_self _ _, hs2.symm, hn2⟩
      · exact Or.inr hbase
    · rintro (⟨hu, sh2, hsh2, hs2, hn2⟩ | hbase)
      · rcases List.mem_cons.mp hsh2 with he | hm
        · subst he
          exact Or.inr (Or.inl ⟨hn2, hu, hs2.symm⟩)
        · exact Or.inl ⟨hu, sh2, hm, hs2, hn2⟩
      · exact Or.inr (Or.inr hbase)

theorem shardKept_eq (sh : Shard) :
    shardKept sh =
      decide (sh.shard_state = ShardState.Open ∨ sh.shard_state = ShardState.Closed) := by
  cases h : sh.shard_state <;> simp [shardKept, h]

/-- C6: `initialize_source_shards` panics exactly when an entry already
exists for the source; otherwise it adds every given shard's id under
each of its ingester nodes in the secondary index and installs an entry
holding exactly the given shards whose state is `Open` or `Closed`
(other states are dropped), with default rate limiters. -/
theorem init_source_shards_spec (t : ShardTable) (source_uid : SourceUid) (shards : List Shard)
    (hnd : (shards.map Shard.shard_id).Nodup) :
    (t.init_source_shards source_uid shards = none ↔
      (lookupA source_uid t.table_entries).isSome = true) ∧
    ∀ t2, t.init_source_shards source_uid shards = some t2 →
      (∀ n u s, ingMember t2.ingester_shards n u s ↔
        (u = source_uid ∧ ∃ sh ∈ shards, sh.shard_id = s ∧ n ∈ sh.ingester_nodes) ∨
          ingMember t.ingester_shards n u s) ∧
      ∃ entry2, lookupA source_uid t2.table_entries = some entry2 ∧
        (∀ sid, lookupA sid entry2.shard_entries =
          ((shards.filter (fun sh => decide (sh.shard_state = ShardState.Open ∨
              sh.shard_state = ShardState.Closed))).find?
            (fun sh => decide (sh.shard_id = sid))).map ShardEntry.ofShard) ∧
        entry2.scaling_up_rate_limiter = RateLimiter.from_settings scalingUpSettings ∧
        entry2.scaling_down_rate_limiter = RateLimiter.from_settings scalingDownSettings := by
  cases hlook : lookupA source_uid t.table_entries with
  | some entry =>
    have hnone : t.init_source_shards source_uid shards = none := by
      unfold ShardTable.init_source_shards
      rw [hlook]
    refine ⟨iff_of_true hnone rfl, ?_⟩
    intro t2 ht2
    rw [hnone] at ht2
    exact Option.noConfusion ht2
  | none =>
    have hres : t.init_source_shards source_uid shards =
        some { table_entries :=
                 insertA source_uid (ShardTableEntry.from_shards shards) t.table_entries
               ingester_shards := mirrorShards source_uid shards t.ingester_shards } := by
      unfold ShardTable.init_source_shards
      rw [hlook]
    constructor
    · refine iff_of_false (fun h => ?_) (by simp)
      rw [hres] at h
      exact Option.noConfusion h
    · intro t2 ht2
      rw [hres] at ht2
      obtain rfl := Option.some.inj ht2
      constructor
      · intro n u s
        exact mem_mirrorShards source_uid shards t.ingester_shards n u s
      · refine ⟨ShardTableEntry.from_shards shards, by rw [lookupA_insertA, if_pos rfl], ?_,
          rfl, rfl⟩
        intro sid
        have hndf : ((shards.filter shardKept).map Shard.shard_id).Nodup :=
          List.Nodup.sublist (List.Sublist.map _ (List.filter_sublist _)) hnd
        have hlk := lookup_fold_insertA (shards.filter shardKept) [] hndf
          (fun sh _ => rfl) sid
        unfold ShardTableEntry.from_shards
        rw [hlk]
        have hfc : shards.filter shardKept =
            shards.filter (fun sh => decide (sh.shard_state = ShardState.Open ∨
              sh.shard_state = ShardState.Closed)) :=
          List.filter_congr (fun sh _ => shardKept_eq sh)
        rw [hfc]
        rfl

theorem init_source_shards_spec_witness :
    (ShardTable.default.init_source_shards uid0 sampleShards = none ↔
      (lookupA uid0 ShardTable.default.table_entries).isSome = true) ∧
    ∀ t2, ShardTable.default.init_source_shards uid0 sampleShards = some t2 →
      (∀ n u s, ingMember t2.ingester_shards n u s ↔
        (u = uid0 ∧ ∃ sh ∈ sampleShards, sh.shard_id = s ∧ n ∈ sh.ingester_nodes) ∨
          ingMember ShardTable.default.ingester_shards n u s) ∧
      ∃ entry2, lookupA uid0 t2.table_entries = some entry2 ∧
        (∀ sid, lookupA sid entry2.shard_entries =
          ((sampleShards.filter (fun sh => decide (sh.shard_state = ShardState.Open ∨
              sh.shard_state = ShardState.Closed))).find?
            (fun sh => decide (sh.shard_id = sid))).map ShardEntry.ofShard) ∧
        entry2.scaling_up_rate_limiter = RateLimiter.from_settings scalingUpSettings ∧
        entry2.scaling_down_rate_limiter = RateLimiter.from_settings scalingDownSettings :=
  init_source_shards_spec ShardTable.default uid0 sampleShards (by decide)

theorem ingHasSlot_step (node : NodeId) (uid : SourceUid) (ids2 : List ShardId)
    (m : List (SourceUid × List ShardId)) (ing : IngMap)
    (h1 : lookupA node ing = some m) (h2 : (lookupA uid m).isSome = true)
    (n : NodeId) (u : SourceUid) :
    ingHasSlot (insertA node (insertA uid ids2 m) ing) n u = ingHasSlot ing n u := by
  unfold ingHasSlot
  rw [lookupA_insertA]
  by_cases hn : node = n
  · subst hn
    rw [if_pos rfl, h1]
    show (lookupA u (insertA uid ids2 m)).isSome = (lookupA u m).isSome
    rw [lookupA_insertA]
    by_cases hu : uid = u
    · subst hu
      rw [if_pos rfl, h2]
      rfl
    · rw [if_neg hu]
  · rw [if_neg hn]

theorem ingLookup_remove_step (node : NodeId) (uid : SourceUid) (sid : ShardId)
    (m : List (SourceUid × List ShardId)) (ids : List ShardId) (ing : IngMap)
    (h1 : lookupA node ing = some m) (h2 : lookupA uid m = some ids)
    (n : NodeId) (u : SourceUid) (s : ShardId) :
    s ∈ ingLookup (insertA node (insertA uid (ids.filter (fun x => decide (x ≠ sid))) m) ing)
        n u ↔
      s ∈ ingLookup ing n u ∧ ¬(n = node ∧ u = uid ∧ s = sid) := by
  rw [ingLookup_eq_getD, lookupA_insertA]
  by_cases hn : node = n
  · subst hn
    rw [if_pos rfl]
    simp only [Option.getD_some]
    rw [lookupA_insertA]
    by_cases hu : uid = u
    · subst hu
      rw [if_pos rfl]
      simp only [Option.getD_some]
      rw [List.mem_filter, ingLookup_eq_getD, h1]
      simp [h2]
    · rw [if_neg hu, ingLookup_eq_getD, h1]
      have hu2 : ¬ u = uid := fun he => hu he.symm
      simp [hu2]
  · rw [if_neg hn, ← ingLookup_eq_getD]
    have hn2 : ¬ n = node := fun he => hn he.symm
    simp [hn2]

theorem removeShardFromIngesters_spec (nodes : List NodeId) (uid : SourceUid) (sid : ShardId)
    (ing : IngMap) (hslots : ∀ n2 ∈ nodes, ingHasSlot ing n2 uid = true) :
    ∃ ing2, removeShardFromIngesters uid sid nodes ing = some ing2 ∧
      (∀ n u, ingHasSlot ing2 n u = ingHasSlot ing n u) ∧
      (∀ n u s, s ∈ ingLookup ing2 n u ↔
        s ∈ ingLookup ing n u ∧ ¬(u = uid ∧ s = sid ∧ n ∈ nodes)) := by
  induction nodes generalizing ing with
  | nil =>
    refine ⟨ing, rfl, fun n u => rfl, ?_⟩
    intro n u s
    simp
  | cons node rest ih =>
    have hslot := hslots node (List.mem_cons_self _ _)
    unfold ingHasSlot at hslot
    cases h1 : lookupA node ing with
    | none =>
      rw [h1] at hslot
      simp at hslot
    | some m =>
      rw [h1] at hslot
      cases h2 : lookupA uid m with
      | none =>
        simp [h2] at hslot
      | some ids =>
        have hstep : removeShardFromIngesters uid sid (node :: rest) ing =
            removeShardFromIngesters uid sid rest
              (insertA node (insertA uid (ids.filter (fun x => decide (x ≠ sid))) m) ing) := by
          simp only [removeShardFromIngesters, h1, h2]
        have hpres : ∀ n u,
            ingHasSlot
                (insertA node (insertA uid (ids.filter (fun x => decide (x ≠ sid))) m) ing)
                n u = ingHasSlot ing n u :=
          ingHasSlot_step node uid _ m ing h1 (by rw [h2]; rfl)
        have hslots1 : ∀ n2 ∈ rest,
            ingHasSlot
              (insertA node (insertA uid (ids.filter (fun x => decide (x ≠ sid))) m) ing)
              n2 uid = true := by
          intro n2 hn2
          rw [hpres]
          exact hslots n2 (List.mem_cons_of_mem _ hn2)
        obtain ⟨ing2, hing2, hpres2, hmem2⟩ := ih _ hslots1
        refine ⟨ing2, by rw [hstep]; exact hing2, ?_, ?_⟩
        · intro n u
          rw [hpres2, hpres]
        · intro n u s
          rw [hmem2, ingLookup_remove_step node uid sid m ids ing h1 h2]
          constructor
          · rintro ⟨⟨hbase, hnot1⟩, hnot2⟩
            refine ⟨hbase, ?_⟩
            rintro ⟨hu, hs, hmem⟩
            rcases List.mem_cons.mp hmem with he | hr
            · exact hnot1 ⟨he, hu, hs⟩
            · exact hnot2 ⟨hu, hs, hr⟩
          · rintro ⟨hbase, hnot⟩
            refine ⟨⟨hbase, ?_⟩, ?_⟩
            · rintro ⟨hn, hu, hs⟩
              exact hnot ⟨hu, hs, by rw [hn]; exact List.mem_cons_self node rest⟩
            · rintro ⟨hu, hs, hr⟩
              exact hnot ⟨hu, hs, List.mem_cons_of_mem _ hr⟩

theorem removeShardsFromIngesters_spec (l : List (SourceUid × Shard)) (ing : IngMap)
    (hslots : ∀ p ∈ l, ∀ n2 ∈ p.2.ingester_nodes, ingHasSlot ing n2 p.1 = true) :
    ∃ ing2, removeShardsFromIngesters l ing = some ing2 ∧
      (∀ n u, ingHasSlot ing2 n u = ingHasSlot ing n u) ∧
      (∀ n u s, s ∈ ingLookup ing2 n u ↔
        s ∈ ingLookup ing n u ∧
          ¬∃ p ∈ l, p.1 = u ∧ p.2.shard_id = s ∧ n ∈ p.2.ingester_nodes) := by
  induction l generalizing ing with
  | nil =>
    refine ⟨ing, rfl, fun n u => rfl, ?_⟩
    intro n u s
    simp
  | cons p rest ih =>
    obtain ⟨ing1, hing1, hpres1, hmem1⟩ :=
      removeShardFromIngesters_spec p.2.ingester_nodes p.1 p.2.shard_id ing
        (fun n2 hn2 => hslots p (List.mem_cons_self _ _) n2 hn2)
    have hslots1 : ∀ q ∈ rest, ∀ n2 ∈ q.2.ingester_nodes, ingHasSlot ing1 n2 q.1 = true := by
      intro q hq n2 hn2
      rw [hpres1]
      exact hslots q (List.mem_cons_of_mem _ hq) n2 hn2
    obtain ⟨ing2, hing2, hpres2, hmem2⟩ := ih _ hslots1
    have hstep : removeShardsFromIngesters (p :: rest) ing =
        removeShardsFromIngesters rest ing1 := by
      simp only [removeShardsFromIngesters, hing1]
    refine ⟨ing2, by rw [hstep]; exact hing2, fun n u => by rw [hpres2, hpres1], ?_⟩
    intro n u s
    rw [hmem2, hmem1]
    constructor
    · rintro ⟨⟨hbase, hnot1⟩, hnot2⟩
      refine ⟨hbase, ?_⟩
      rintro ⟨q, hq, hqu, hqs, hqn⟩
      rcases List.mem_cons.mp hq with he | hr
      · subst he
        exact hnot1 ⟨hqu.symm, hqs.symm, hqn⟩
      · exact hnot2 ⟨q, hr, hqu, hqs, hqn⟩
    · rintro ⟨hbase, hnot⟩
      refine ⟨⟨hbase, ?_⟩, ?_⟩
      · rintro ⟨hu, hs, hn⟩
        exact hnot ⟨p, List.mem_cons_self _ _, hu.symm, hs.symm, hn⟩
      · rintro ⟨q, hr, hqu, hqs, hqn⟩
        exact hnot ⟨q, List.mem_cons_of_mem _ hr, hqu, hqs, hqn⟩

theorem lookupA_filter_not_index (l : List (SourceUid × ShardTableEntry)) (index_id : String)
    (u : SourceUid) :
    lookupA u (l.filter (fun p => !(p.1.index_uid.index_id == index_id))) =
      if u.index_uid.index_id = index_id then none else lookupA u l := by
  induction l with
  | nil => by_cases hu : u.index_uid.index_id = index_id <;> simp [lookupA, hu]
  | cons p rest ih =>
    rw [List.filter_cons]
    cases hb : (p.1.index_uid.index_id == index_id) with
    | true =>
      have hbe : p.1.index_uid.index_id = index_id := beq_iff_eq.mp hb
      simp only [Bool.not_true, Bool.false_eq_true, if_false]
      rw [ih]
      by_cases h1 : p.1 = u
      · subst h1
        rw [if_pos hbe, if_pos hbe]
      · have hskip : lookupA u (p :: rest) = lookupA u rest := by
          rw [lookupA, if_neg h1]
        rw [hskip]
    | false =>
      have hbe : ¬ p.1.index_uid.index_id = index_id := fun he => by
        rw [beq_iff_eq.mpr he] at hb
        exact Bool.noConfusion hb
      simp only [Bool.not_false]
      rw [if_pos trivial]
      by_cases h1 : p.1 = u
      · subst h1
        rw [lookupA, if_pos rfl, if_neg hbe, lookupA, if_pos rfl]
      · rw [lookupA, if_neg h1, ih]
        by_cases hu : u.index_uid.index_id = index_id
        · rw [if_pos hu, if_pos hu]
        · rw [if_neg hu, if_neg hu, lookupA, if_neg h1]

/-- C9: `delete_index` succeeds on every state the internal consistency
asserts can hold of (well-formed and with every stored shard's node slots
present), removes exactly the entries whose `index_id` component matches
(all the generations of the index, and nothing else), and strips every
removed shard's id from the ingester sets it appeared in. -/
theorem delete_index_spec (t : ShardTable) (index_id : String)
    (hwf : wfTable t) (hcov : coveredByIngesters t) :
    ∃ t2, t.delete_index index_id = some t2 ∧
      (∀ u : SourceUid, lookupA u t2.table_entries =
        if u.index_uid.index_id = index_id then none else lookupA u t.table_entries) ∧
      (∀ n u s, ingMember t2.ingester_shards n u s ↔
        ingMember t.ingester_shards n u s ∧
          ¬∃ entry se, lookupA u t.table_entries = some entry ∧
            u.index_uid.index_id = index_id ∧
            lookupA s entry.shard_entries = some se ∧ n ∈ se.shard.ingester_nodes) := by
  have hslots : ∀ r ∈ concatMapL (fun p => p.2.shard_entries.map (fun q => (p.1, q.2.shard)))
      (t.table_entries.filter (fun p => p.1.index_uid.index_id == index_id)),
      ∀ n2 ∈ r.2.ingester_nodes, ingHasSlot t.ingester_shards n2 r.1 = true := by
    intro r hr n2 hn2
    rw [mem_concatMapL] at hr
    obtain ⟨p, hp, hq⟩ := hr
    rw [List.mem_filter] at hp
    obtain ⟨q, hq2, hq3⟩ := List.mem_map.mp hq
    subst hq3
    exact hcov p hp.1 q hq2 n2 hn2
  obtain ⟨ing2, hing2, hpres, hmem⟩ :=
    removeShardsFromIngesters_spec
      (concatMapL (fun p => p.2.shard_entries.map (fun q => (p.1, q.2.shard)))
        (t.table_entries.filter (fun p => p.1.index_uid.index_id == index_id)))
      t.ingester_shards hslots
  have hres : t.delete_index index_id = some
      { table_entries :=
          t.table_entries.filter (fun p => !(p.1.index_uid.index_id == index_id))
        ingester_shards := ing2 } := by
    simp only [ShardTable.delete_index]
    rw [hing2]
  refine ⟨_, hres, ?_, ?_⟩
  · intro u
    exact lookupA_filter_not_index t.table_entries index_id u
  · intro n u s
    show s ∈ ingLookup ing2 n u ↔
      s ∈ ingLookup t.ingester_shards n u ∧
        ¬∃ entry se, lookupA u t.table_entries = some entry ∧
          u.index_uid.index_id = index_id ∧
          lookupA s entry.shard_entries = some se ∧ n ∈ se.shard.ingester_nodes
    rw [hmem]
    have hiff : (∃ r ∈ concatMapL (fun p => p.2.shard_entries.map (fun q => (p.1, q.2.shard)))
        (t.table_entries.filter (fun p => p.1.index_uid.index_id == index_id)),
        r.1 = u ∧ r.2.shard_id = s ∧ n ∈ r.2.ingester_nodes) ↔
        (∃ entry se, lookupA u t.table_entries = some entry ∧
          u.index_uid.index_id = index_id ∧
          lookupA s entry.shard_entries = some se ∧ n ∈ se.shard.ingester_nodes) := by
      constructor
      · rintro ⟨r, hr, hru, hrs, hrn⟩
        rw [mem_concatMapL] at hr
        obtain ⟨p, hp, hq⟩ := hr
        rw [List.mem_filter] at hp
        obtain ⟨q, hq2, hq3⟩ := List.mem_map.mp hq
        obtain ⟨p1, p2⟩ := p
        obtain ⟨q1, q2⟩ := q
        subst hq3
        have hru2 : p1 = u := hru
        subst hru2
        have hinner := hwf.2 (p1, p2) hp.1
        have hq1 : q1 = s := by
          have hidq : q2.shard.shard_id = q1 := hinner.2 (q1, q2) hq2
          rw [← hidq]
          exact hrs
        subst hq1
        refine ⟨p2, q2, ?_, ?_, ?_, hrn⟩
        · exact (lookupA_eq_some_iff_mem t.table_entries hwf.1 p1 p2).mpr hp.1
        · exact beq_iff_eq.mp hp.2
        · exact (lookupA_eq_some_iff_mem p2.shard_entries hinner.1 q1 q2).mpr hq2
      · rintro ⟨entry, se, hlook, hid, hse, hn⟩
        have hpmem : (u, entry) ∈ t.table_entries :=
          (lookupA_eq_some_iff_mem t.table_entries hwf.1 u entry).mp hlook
        have hinner := hwf.2 (u, entry) hpmem
        have hsemem : (s, se) ∈ entry.shard_entries :=
          (lookupA_eq_some_iff_mem entry.shard_entries hinner.1 s se).mp hse
        refine ⟨(u, se.shard), ?_, rfl, ?_, hn⟩
        · rw [mem_concatMapL]
          refine ⟨(u, entry), ?_, ?_⟩
          · rw [List.mem_filter]
            exact ⟨hpmem, beq_iff_eq.mpr hid⟩
          · rw [List.mem_map]
            exact ⟨(s, se), hsemem, rfl⟩
        · exact hinner.2 (s, se) hsemem
    rw [hiff]

theorem delete_index_spec_witness :
    ∃ t2, sampleT.delete_index "test-index" = some t2 ∧
      (∀ u : SourceUid, lookupA u t2.table_entries =
        if u.index_uid.index_id = "test-index" then none else lookupA u sampleT.table_entries) ∧
      (∀ n u s, ingMember t2.ingester_shards n u s ↔
        ingMember sampleT.ingester_shards n u s ∧
          ¬∃ entry se, lookupA u sampleT.table_entries = some entry ∧
            u.index_uid.index_id = "test-index" ∧
            lookupA s entry.shard_entries = some se ∧ n ∈ se.shard.ingester_nodes) :=
  delete_index_spec sampleT "test-index" (by decide) (by decide)

end QW
